import Mathlib

set_option autoImplicit false
set_option maxHeartbeats 1000000
set_option maxRecDepth 40000

/-!
Shallow embedding of the MCP tool code generator that the example
scripts of this repository rely on.  The generator implementation
itself (`MCPCodeGenerator`) is not among the provided sources; the
definitions below are modelled from the specification (sections 3-7),
and, where the example scripts pin the observable contract (import
paths, subscript access on tool info records), from those scripts.
-/

/-! ## Identifier Mapper -/

/-- Modelled from the spec: a character that may stand in a derived
identifier (letters, digits, underscore).  The generator implementation
is absent from the repository. -/
def identChar (c : Char) : Bool := c.isAlpha || c.isDigit || c = '_'

/-- Modelled from the spec: collapse repeated underscores produced by
replacing runs of non-identifier characters. -/
def collapseUnderscores : List Char → List Char
  | [] => []
  | [c] => [c]
  | c :: c' :: rest =>
      if c = '_' && c' = '_' then collapseUnderscores (c' :: rest)
      else c :: collapseUnderscores (c' :: rest)

/-- Modelled from the spec, section 4.2: lower-case, replace
non-identifier characters with underscore, collapse repeats, and guard
a leading digit with an underscore. -/
def sanitizeBase (s : String) : String :=
  let mapped := s.data.map (fun c => if identChar c then c.toLower else '_')
  let collapsed := collapseUnderscores mapped
  match collapsed with
  | [] => "_"
  | c :: _ => if c.isDigit then ⟨'_' :: collapsed⟩ else ⟨collapsed⟩

/-- Modelled from the spec: search for the first free suffixed name
`base_k`, `base_k+1`, ... within the fuel bound (the spec fixes a
generous bound of 1000). -/
def findSuffixed (used : List String) (base : String) : Nat → Nat → Option String
  | _, 0 => none
  | k, fuel + 1 =>
      let cand := base ++ "_" ++ toString k
      if cand ∈ used then findSuffixed used base (k + 1) fuel else some cand

/-- Modelled from the spec: the base name itself if free, else the
first free of `base_2`, `base_3`, ..., `base_1000`. -/
def findFree (used : List String) (base : String) : Option String :=
  if base ∈ used then findSuffixed used base 2 999 else some base

/-- Modelled from the spec: derive one fresh name per raw name, in
order of first encounter, threading the set of already-used names. -/
def deriveAll (used : List String) : List String → Option (List String)
  | [] => some []
  | raw :: rest =>
      match findFree used (sanitizeBase raw) with
      | none => none
      | some n =>
          match deriveAll (n :: used) rest with
          | none => none
          | some ns => some (n :: ns)

/-- Modelled from the spec: the Identifier Mapper's derive operation on
a whole sequence of raw tool names within one server namespace. -/
def deriveNames (raws : List String) : Option (List String) :=
  deriveAll [] raws

theorem findSuffixed_not_mem (used : List String) (base : String) :
    ∀ fuel k n, findSuffixed used base k fuel = some n → n ∉ used := by
  intro fuel
  induction fuel with
  | zero => intro k n h; simp [findSuffixed] at h
  | succ fuel ih =>
      intro k n h
      by_cases hc : (base ++ "_" ++ toString k) ∈ used
      · simp only [findSuffixed, if_pos hc] at h
        exact ih (k + 1) n h
      · simp only [findSuffixed, if_neg hc] at h
        cases h
        exact hc

theorem findFree_not_mem (used : List String) (base n : String)
    (h : findFree used base = some n) : n ∉ used := by
  by_cases hb : base ∈ used
  · simp only [findFree, if_pos hb] at h
    exact findSuffixed_not_mem used base 999 2 n h
  · simp only [findFree, if_neg hb] at h
    cases h
    exact hb

theorem deriveAll_sound (raws : List String) :
    ∀ used ds, deriveAll used raws = some ds →
      ds.Nodup ∧ ∀ d ∈ ds, d ∉ used := by
  induction raws with
  | nil =>
      intro used ds h
      simp [deriveAll] at h
      subst h
      simp
  | cons raw rest ih =>
      intro used ds h
      cases hf : findFree used (sanitizeBase raw) with
      | none => simp only [deriveAll, hf] at h; cases h
      | some n =>
          simp only [deriveAll, hf] at h
          cases hr : deriveAll (n :: used) rest with
          | none => rw [hr] at h; cases h
          | some ns =>
              rw [hr] at h
              cases h
              obtain ⟨hnodup, hdisj⟩ := ih (n :: used) ns hr
              have hn : n ∉ used := findFree_not_mem used (sanitizeBase raw) n hf
              refine ⟨List.nodup_cons.mpr ⟨?_, hnodup⟩, ?_⟩
              · intro hmem
                exact (hdisj n hmem) (List.mem_cons_self n used)
              · intro d hd
                rcases List.mem_cons.mp hd with rfl | hd'
                · exact hn
                · intro hdu
                  exact (hdisj d hd') (List.mem_cons_of_mem n hdu)

theorem deriveAll_length (raws : List String) :
    ∀ used ds, deriveAll used raws = some ds → ds.length = raws.length := by
  induction raws with
  | nil => intro used ds h; simp [deriveAll] at h; subst h; rfl
  | cons raw rest ih =>
      intro used ds h
      cases hf : findFree used (sanitizeBase raw) with
      | none => simp only [deriveAll, hf] at h; cases h
      | some n =>
          simp only [deriveAll, hf] at h
          cases hr : deriveAll (n :: used) rest with
          | none => rw [hr] at h; cases h
          | some ns =>
              rw [hr] at h
              cases h
              simp [ih (n :: used) ns hr]

/-- C1: within one server namespace, the derive operation yields
pairwise distinct function names (collisions resolved by `_2`, `_3`,
... in first-encounter order, the assignment being a deterministic
function of the input sequence), and on the concrete pair
`list_files`, `list-files` it yields `list_files` and `list_files_2`. -/
theorem identifier_mapper_distinct (raws ds : List String)
    (h : deriveNames raws = some ds) :
    ds.Nodup ∧
      (raws = ["list_files", "list-files"] →
        ds = ["list_files", "list_files_2"]) := by
  constructor
  · exact (deriveAll_sound raws [] ds h).1
  · intro hr
    subst hr
    have : deriveNames ["list_files", "list-files"] =
        some ["list_files", "list_files_2"] := by decide
    rw [this] at h
    cases h
    rfl

/-- Concrete instantiation of `identifier_mapper_distinct` on the
spec's own example pair. -/
theorem identifier_mapper_distinct_witness :
    (["list_files", "list_files_2"] : List String).Nodup ∧
      ((["list_files", "list-files"] : List String) =
          ["list_files", "list-files"] →
        (["list_files", "list_files_2"] : List String) =
          ["list_files", "list_files_2"]) :=
  identifier_mapper_distinct ["list_files", "list-files"]
    ["list_files", "list_files_2"] (by decide)

/-! ## Schema model and Type Translator -/

/-- Modelled from the spec, section 4.3: the normalized schema type
tree of a tool parameter (the generator implementation is absent from
the repository).  `unknown` stands for an unrepresentable or unknown
schema node. -/
inductive SchemaNode where
  | stringT : SchemaNode
  | numberT : SchemaNode
  | booleanT : SchemaNode
  | integerT : SchemaNode
  | arrayT : SchemaNode → SchemaNode
  | objectT : List (String × SchemaNode) → SchemaNode
  | freeformT : SchemaNode
  | enumT : List String → SchemaNode
  | unknown : String → SchemaNode

/-- Modelled from the spec, section 4.3: target-language type
annotations produced by the Type Translator. -/
inductive TypeAnn where
  | str : TypeAnn
  | num : TypeAnn
  | boolean : TypeAnn
  | int : TypeAnn
  | listOf : TypeAnn → TypeAnn
  | recordOf : List (String × TypeAnn) → TypeAnn
  | strMap : TypeAnn
  | literals : List String → TypeAnn
  | anyT : TypeAnn

mutual

/-- Modelled from the spec, section 4.3: the Type Translator's mapping
table; the unrepresentable/unknown case falls back to the opaque any
annotation and never fails. -/
def translateType : SchemaNode → TypeAnn
  | .stringT => .str
  | .numberT => .num
  | .booleanT => .boolean
  | .integerT => .int
  | .arrayT e => .listOf (translateType e)
  | .objectT fields => .recordOf (translateTypeFields fields)
  | .freeformT => .strMap
  | .enumT vs => .literals vs
  | .unknown _ => .anyT

/-- Translate the fixed fields of an object schema one by one. -/
def translateTypeFields : List (String × SchemaNode) → List (String × TypeAnn)
  | [] => []
  | (n, s) :: rest => (n, translateType s) :: translateTypeFields rest

end

/-- Modelled from the spec, section 4.1: a raw JSON-schema-like node as
received from a server handshake, carrying a type keyword, enum
values, array items, object properties and any unknown keywords. -/
inductive RawNode where
  | node : Option String → List String → Option RawNode →
      List (String × RawNode) → List (String × String) → RawNode

/-- The unknown keywords attached to a raw node. -/
def RawNode.unknownKeywords : RawNode → List (String × String)
  | .node _ _ _ _ unk => unk

/-- The schema type names the Schema Normalizer recognises. -/
def knownTypeNames : List String :=
  ["string", "number", "boolean", "integer", "array", "object"]

mutual

/-- Modelled from the spec, section 4.1: derive the normalized type
tree of a raw node.  Unknown keywords are ignored for type derivation;
an unknown or missing type name yields an `unknown` node (never a
crash). -/
def normalizeNode : RawNode → SchemaNode
  | .node typeKw enumVals items props _unk =>
      if enumVals ≠ [] then .enumT enumVals
      else
        match typeKw with
        | none => .unknown "missing type"
        | some t =>
            if t = "string" then .stringT
            else if t = "number" then .numberT
            else if t = "boolean" then .booleanT
            else if t = "integer" then .integerT
            else if t = "array" then
              match items with
              | some i => .arrayT (normalizeNode i)
              | none => .arrayT (.unknown "items")
            else if t = "object" then
              match props with
              | [] => .freeformT
              | ps => .objectT (normalizeProps ps)
            else .unknown t

/-- Normalize the named properties of an object node one by one. -/
def normalizeProps : List (String × RawNode) → List (String × SchemaNode)
  | [] => []
  | (n, r) :: rest => (n, normalizeNode r) :: normalizeProps rest

end

/-- Modelled from the spec, section 3: a parameter record owned by a
ToolDescriptor; unknown raw keywords are preserved as opaque
metadata. -/
structure ParameterSpec where
  name : String
  type_ : SchemaNode
  required : Bool
  metadata : List (String × String)

/-- Modelled from the spec, section 4.1: normalize one raw parameter,
preserving unknown keywords as opaque metadata. -/
def normalizeParam (name : String) (raw : RawNode) (req : Bool) : ParameterSpec :=
  ⟨name, normalizeNode raw, req, raw.unknownKeywords⟩

theorem normalizeNode_ignores_unknown
    (typeKw : Option String) (enumVals : List String) (items : Option RawNode)
    (props : List (String × RawNode)) (unk unk' : List (String × String)) :
    normalizeNode (.node typeKw enumVals items props unk) =
      normalizeNode (.node typeKw enumVals items props unk') := by
  rw [normalizeNode.eq_def]
  conv_rhs => rw [normalizeNode.eq_def]

/-- C6: an unrepresentable or unknown schema node translates to the
opaque any annotation (the translator is a total function, so no hard
failure can occur), and the Schema Normalizer does not fail on unknown
schema keywords: they are preserved verbatim as opaque metadata and
do not influence the derived type. -/
theorem translator_unknown_any
    (name t : String) (enumVals : List String) (items : Option RawNode)
    (props : List (String × RawNode)) (unk : List (String × String))
    (req : Bool)
    (ht : t ∉ knownTypeNames) (he : enumVals = []) :
    translateType (normalizeNode (.node (some t) enumVals items props unk)) =
        .anyT ∧
      (normalizeParam name (.node (some t) enumVals items props unk) req).metadata
        = unk ∧
      (normalizeParam name (.node (some t) enumVals items props unk) req).type_
        = normalizeNode (.node (some t) enumVals items props []) := by
  subst he
  refine ⟨?_, rfl, normalizeNode_ignores_unknown _ _ _ _ _ _⟩
  simp only [knownTypeNames, List.mem_cons, List.not_mem_nil, or_false,
    not_or] at ht
  obtain ⟨h1, h2, h3, h4, h5, h6⟩ := ht
  rw [normalizeNode.eq_def]
  simp only [ne_eq, not_true_eq_false, reduceIte,
    if_neg h1, if_neg h2, if_neg h3, if_neg h4, if_neg h5, if_neg h6]
  rw [translateType.eq_def]

/-- Concrete instantiation of `translator_unknown_any` on a node whose
type keyword is `recursive-ref` with one unknown keyword attached. -/
theorem translator_unknown_any_witness :
    translateType (normalizeNode
        (.node (some "recursive-ref") [] none [] [("x-vendor", "1")])) =
        .anyT ∧
      (normalizeParam "p"
          (.node (some "recursive-ref") [] none [] [("x-vendor", "1")])
          true).metadata
        = [("x-vendor", "1")] ∧
      (normalizeParam "p"
          (.node (some "recursive-ref") [] none [] [("x-vendor", "1")])
          true).type_
        = normalizeNode (.node (some "recursive-ref") [] none [] []) :=
  translator_unknown_any "p" "recursive-ref" [] none [] [("x-vendor", "1")]
    true (by decide) rfl

/-! ## Registry / Session Store -/

/-- Modelled from the spec: an opaque transport session handle; the
core treats the MCP session as an external capability. -/
structure McpSession where
  handle : Nat
deriving DecidableEq

/-- Modelled from the spec, section 4.4: the state of the shared
session accessor module used by generated stubs. -/
structure ClientState where
  session : Option McpSession
deriving DecidableEq

/-- The accessor state before any session has been set. -/
def initClientState : ClientState := ⟨none⟩

/-- Modelled from the spec, section 4.4: `set_session` replaces the
active session reference. -/
def set_session (s : McpSession) (_st : ClientState) : ClientState := ⟨some s⟩

/-- Modelled from the spec, section 4.4: read back the active session
reference. -/
def get_session (st : ClientState) : Option McpSession := st.session

/-- Modelled from the spec, section 7: the error raised by a generated
stub invoked before any session was set. -/
inductive StubError where
  | sessionNotInitialized : StubError
deriving DecidableEq

/-- The observable effect of a stub call: a dispatch through a session
with the tool's qualified name and its keyword-argument map. -/
structure CallResult where
  viaSession : McpSession
  toolName : String
  arguments : List (String × String)
deriving DecidableEq

/-- Modelled from the spec, section 4.5: the generic dispatch a stub
body performs through the active session. -/
def dispatch (s : McpSession) (tool : String)
    (args : List (String × String)) : CallResult :=
  ⟨s, tool, args⟩

/-- Modelled from the spec, sections 4.4 and 4.5: a generated stub
dispatches through the stored session, and fails with
`SessionNotInitializedError` when no session has been set. -/
def invokeStub (st : ClientState) (tool : String)
    (args : List (String × String)) : Except StubError CallResult :=
  match st.session with
  | none => .error .sessionNotInitialized
  | some s => .ok (dispatch s tool args)

/-- C4: invoking a generated stub before `set_session` has been called
fails with `SessionNotInitializedError`; after `set_session s` the
stub dispatches through the stored session `s`; and a later
`set_session` replaces the active session reference. -/
theorem stub_session_gate (st : ClientState) (tool : String)
    (args : List (String × String)) (s s' : McpSession)
    (h : st.session = none) :
    invokeStub st tool args = .error .sessionNotInitialized ∧
      invokeStub (set_session s st) tool args = .ok (dispatch s tool args) ∧
      set_session s' (set_session s st) = set_session s' st := by
  refine ⟨?_, rfl, rfl⟩
  simp [invokeStub, h]

/-- Concrete instantiation of `stub_session_gate` at the fresh accessor
state and a `list_files` call. -/
theorem stub_session_gate_witness :
    invokeStub initClientState "list_files" [("folder_id", "root")] =
        .error .sessionNotInitialized ∧
      invokeStub (set_session ⟨1⟩ initClientState) "list_files"
          [("folder_id", "root")] =
        .ok (dispatch ⟨1⟩ "list_files" [("folder_id", "root")]) ∧
      set_session ⟨2⟩ (set_session ⟨1⟩ initClientState) =
        set_session ⟨2⟩ initClientState :=
  stub_session_gate initClientState "list_files" [("folder_id", "root")]
    ⟨1⟩ ⟨2⟩ rfl

/-- Modelled from the spec, section 3: the descriptor of one
discovered tool. -/
structure ToolDescriptor where
  name : String
  description : String
  input_schema : SchemaNode
  server_id : String

/-- The raw tool name of a descriptor: its server-qualified name with
the leading `<server_id>.` qualifier removed when present.  The
Identifier Mapper of spec section 4.2 derives function names from the
raw tool name, and the example scripts import `get_document` and
`list_files`, not server-qualified forms. -/
def rawToolName (d : ToolDescriptor) : String :=
  let q := d.server_id ++ "."
  if d.name.data.take q.data.length = q.data then
    ⟨d.name.data.drop q.data.length⟩
  else d.name

/-- Modelled from the spec, sections 3 and 4.4: the in-memory catalog
of discovered tools per server, plus the single optional active
transport session. -/
structure Registry where
  servers : List (String × List ToolDescriptor)
  session : Option McpSession

/-- All descriptors of the Registry in discovery order. -/
def catalog (r : Registry) : List ToolDescriptor :=
  (r.servers.map Prod.snd).join

/-- The generator's public `tools` attribute, modelled as the
Registry catalog (the example script reads `len(generator.tools)`). -/
def generatorTools (r : Registry) : List ToolDescriptor :=
  catalog r

/-- Modelled from the spec, section 4.4: the qualified names of all
discovered tools in discovery order. -/
def list_tools (r : Registry) : List String :=
  (catalog r).map (fun d => d.name)

/-- Modelled from the spec, section 7: the non-fatal error returned on
a query for an unknown tool. -/
inductive RegError where
  | notFound : RegError
deriving DecidableEq

/-- Modelled from the spec, section 4.4: look a tool up by qualified
name; absent names yield `NotFoundError`. -/
def get_tool_info (r : Registry) (name : String) :
    Except RegError ToolDescriptor :=
  match (catalog r).find? (fun d => d.name == name) with
  | some d => .ok d
  | none => .error .notFound

/-- Modelled from the spec, section 4.4: `record` merges one server's
scan result into the catalog, replacing any prior descriptors for that
server id (last scan wins, full replacement). -/
def record (r : Registry) (sid : String) (ds : List ToolDescriptor) :
    Registry :=
  ⟨r.servers.filter (fun p => p.1 ≠ sid) ++ [(sid, ds)], r.session⟩

/-- Modelled from the spec, section 6: `connect_and_scan` mutates the
Registry by recording the scanned server's descriptors. -/
def connect_and_scan (r : Registry) (sid : String)
    (ds : List ToolDescriptor) : Registry :=
  record r sid ds

theorem get_tool_info_spec (r : Registry) (n : String) :
    (n ∈ list_tools r → ∃ d, get_tool_info r n = .ok d ∧ d.name = n) ∧
      (get_tool_info r n = .error .notFound ↔ n ∉ list_tools r) := by
  unfold get_tool_info
  cases hf : (catalog r).find? (fun d => d.name == n) with
  | some d =>
      have hd : d.name = n := by
        have := List.find?_some hf
        simpa using this
      have hmem : n ∈ list_tools r := by
        have := List.mem_of_find?_eq_some hf
        exact List.mem_map.mpr ⟨d, this, hd⟩
      refine ⟨fun _ => ⟨d, rfl, hd⟩, ?_⟩
      constructor
      · intro h; cases h
      · intro h; exact absurd hmem h
  | none =>
      have hnone : ∀ d ∈ catalog r, d.name ≠ n := by
        intro d hd
        have := List.find?_eq_none.mp hf d hd
        simpa using this
      have hnm : n ∉ list_tools r := by
        intro hmem
        obtain ⟨d, hd, hdn⟩ := List.mem_map.mp hmem
        exact hnone d hd hdn
      exact ⟨fun hmem => absurd hmem hnm, by simp [hnm]⟩

/-- C7: `get_tool_info` returns the descriptor of a tool whose
qualified name is in the catalog, and fails with `NotFoundError`
exactly when the queried name is absent from `list_tools`. -/
theorem get_tool_info_found_iff (r : Registry) (n : String) :
    (n ∈ list_tools r → ∃ d, get_tool_info r n = .ok d ∧ d.name = n) ∧
      (get_tool_info r n = .error .notFound ↔ n ∉ list_tools r) :=
  get_tool_info_spec r n

/-- The running example descriptor of the basic-usage script. -/
def toolEx : ToolDescriptor :=
  ⟨"gdrive.get_document", "Fetch a document", .objectT [("document_id", .stringT)], "gdrive"⟩

/-- The running example registry: one scanned server. -/
def regEx : Registry := ⟨[("gdrive", [toolEx])], none⟩

/-- Concrete instantiation of `get_tool_info_found_iff` on the running
example registry. -/
theorem get_tool_info_found_iff_witness :
    ("gdrive.get_document" ∈ list_tools regEx →
        ∃ d, get_tool_info regEx "gdrive.get_document" = .ok d ∧
          d.name = "gdrive.get_document") ∧
      (get_tool_info regEx "gdrive.get_document" = .error .notFound ↔
        "gdrive.get_document" ∉ list_tools regEx) :=
  get_tool_info_found_iff regEx "gdrive.get_document"

/-- A value held at one key of a tool info record. -/
inductive InfoVal where
  | strVal : String → InfoVal
  | schemaVal : SchemaNode → InfoVal

/-- Subscript access on the record returned by `get_tool_info`.
Modelled from the example script's contract — basic_usage.py reads
`info['function_name']` and `info['description']` — so the record
exposes, beyond the spec section 3 ToolDescriptor fields, the derived
sanitized function name under the `function_name` key. -/
def infoGet (d : ToolDescriptor) (key : String) : Option InfoVal :=
  if key = "name" then some (.strVal d.name)
  else if key = "description" then some (.strVal d.description)
  else if key = "input_schema" then some (.schemaVal d.input_schema)
  else if key = "server_id" then some (.strVal d.server_id)
  else if key = "function_name" then
    some (.strVal (sanitizeBase (rawToolName d)))
  else none

/-- C8: for every name returned by `list_tools`, `get_tool_info`
succeeds, and the returned record is subscriptable with at least the
`function_name` key — carrying the sanitized function name the
Identifier Mapper derives from the raw tool name — and the
`description` key, beyond the four fields the spec's ToolDescriptor
lists. -/
theorem tool_info_keys (r : Registry) (n : String)
    (h : n ∈ list_tools r) :
    ∃ d, get_tool_info r n = .ok d ∧
      infoGet d "function_name" =
        some (.strVal (sanitizeBase (rawToolName d))) ∧
      (infoGet d "description").isSome := by
  obtain ⟨d, hd, hn⟩ := (get_tool_info_spec r n).1 h
  exact ⟨d, hd, by simp [infoGet], by simp [infoGet]⟩

/-- Concrete instantiation of `tool_info_keys` on the running example
registry. -/
theorem tool_info_keys_witness :
    ∃ d, get_tool_info regEx "gdrive.get_document" = .ok d ∧
      infoGet d "function_name" =
        some (.strVal (sanitizeBase (rawToolName d))) ∧
      (infoGet d "description").isSome :=
  tool_info_keys regEx "gdrive.get_document" (by
    simp [list_tools, catalog, regEx, toolEx])

/-- C9: after `connect_and_scan` records a server's scan, the public
`tools` collection and the `list_tools` view have the same length, and
this consistency holds for every Registry state. -/
theorem tools_length_consistent (r : Registry) (sid : String)
    (ds : List ToolDescriptor) :
    (generatorTools (connect_and_scan r sid ds)).length
        = (list_tools (connect_and_scan r sid ds)).length ∧
      ∀ r' : Registry,
        (generatorTools r').length = (list_tools r').length := by
  refine ⟨?_, fun r' => ?_⟩ <;>
    simp [generatorTools, list_tools]

/-! ## Code Emitter -/

/-- In-memory model of the output directory: an association list from
file path to file content. -/
abbrev FS := List (String × String)

/-- Read the content of a file, if present. -/
def fsRead : FS → String → Option String
  | [], _ => none
  | (q, d) :: rest, p => if q = p then some d else fsRead rest p

/-- Write a file: update the existing binding in place, else append. -/
def fsWrite : FS → String → String → FS
  | [], p, c => [(p, c)]
  | (q, d) :: rest, p, c =>
      if q = p then (p, c) :: rest else (q, d) :: fsWrite rest p c

/-- Modelled from the spec, section 7: generation-time errors. -/
inductive GenError where
  | outputConflict : GenError
  | nameCollisionExhausted : GenError
deriving DecidableEq

/-- Modelled from the spec, section 4.5: the file-write policy — a
pre-existing identical file is a no-op, a pre-existing divergent file
is overwritten only when `overwrite` is set, and otherwise the write
fails with `OutputConflictError`. -/
def writeFile (ow : Bool) (fs : FS) (p c : String) : Except GenError FS :=
  match fsRead fs p with
  | none => .ok (fsWrite fs p c)
  | some d =>
      if d = c then .ok fs
      else if ow then .ok (fsWrite fs p c)
      else .error .outputConflict

/-- Apply the planned writes left to right, stopping on the first
error. -/
def writeAll (ow : Bool) : FS → List (String × String) → Except GenError FS
  | fs, [] => .ok fs
  | fs, (p, c) :: rest =>
      match writeFile ow fs p c with
      | .error e => .error e
      | .ok fs' => writeAll ow fs' rest

/-- Does this planned write conflict with a pre-existing divergent
file under the given overwrite flag? -/
def conflictAt (ow : Bool) (fs : FS) (pc : String × String) : Bool :=
  !ow &&
    (match fsRead fs pc.1 with
     | some d => d != pc.2
     | none => false)

/-- Does any planned write of the server conflict? -/
def hasConflict (ow : Bool) (fs : FS) (plan : List (String × String)) : Bool :=
  plan.any (conflictAt ow fs)

/-- A generated file path under the output directory (the example
scripts import `servers.gdrive` and `servers._client`, one file per
module directly under the output directory). -/
def pathOf (dir name : String) : String := dir ++ "/" ++ name ++ ".py"

/-- The path of one server's generated module. -/
def modulePath (dir mod : String) : String := pathOf dir mod

/-- The path of the single shared session accessor module.  Modelled
from the example scripts: `from servers._client import set_session`
places it directly under the output directory. -/
def clientPath (dir : String) : String := pathOf dir "_client"

/-- Modelled from the spec, section 4.5: the source of the shared
session accessor module exposing `set_session` and `get_session`. -/
def clientContent : String :=
  "SESSION = None\n\nclass SessionNotInitializedError(Exception):\n    pass\n\ndef set_session(session):\n    global SESSION\n    SESSION = session\n\ndef get_session():\n    if SESSION is None:\n        raise SessionNotInitializedError()\n    return SESSION\n"

/-- Modelled from the spec, section 4.5: one callable stub whose body
performs a generic dispatch through the active session using the
tool's qualified name and its keyword-argument map. -/
def renderStub (fname qual : String) : String :=
  "async def " ++ fname ++
    "(**kwargs):\n    return await _client.get_session().call_tool(\"" ++
    qual ++ "\", kwargs)\n\n"

/-- Render one stub per derived name / descriptor pair. -/
def renderStubs : List (String × ToolDescriptor) → String
  | [] => ""
  | (f, d) :: rest => renderStub f d.name ++ renderStubs rest

/-- Modelled from the spec, section 4.5: render one server's module,
one stub per tool, with function names derived by the Identifier
Mapper from the raw tool names (the examples import `get_document`,
not a server-qualified form); fails only if the collision suffix
bound is exhausted. -/
def renderModule (ds : List ToolDescriptor) : Option String :=
  match deriveAll [] (ds.map rawToolName) with
  | none => none
  | some fnames =>
      some ("from . import _client\n\n" ++ renderStubs (fnames.zip ds))

/-- The planned writes of one server: its module file plus the shared
session accessor file. -/
def plannedServer (dir mod : String) (ds : List ToolDescriptor) :
    Option (List (String × String)) :=
  match renderModule ds with
  | none => none
  | some content =>
      some [(modulePath dir mod, content), (clientPath dir, clientContent)]

/-- Modelled from the spec, sections 4.5 and 7: emit one server's
files.  The plan is checked for conflicts before any write, so a
conflict aborts the server's emission with the file store untouched. -/
def generateServer (ow : Bool) (dir mod : String) (ds : List ToolDescriptor)
    (fs : FS) : FS × Except GenError (List String) :=
  match plannedServer dir mod ds with
  | none => (fs, .error .nameCollisionExhausted)
  | some plan =>
      if hasConflict ow fs plan then (fs, .error .outputConflict)
      else
        match writeAll ow fs plan with
        | .error e => (fs, .error e)
        | .ok fs' => (fs', .ok (plan.map Prod.fst))

/-- Emit every server in turn, collecting one result per server, a
failed server leaving the store as the previous server left it. -/
def runServers (ow : Bool) (dir : String) :
    FS → List (String × String × List ToolDescriptor) →
      FS × List (String × Except GenError (List String))
  | fs, [] => (fs, [])
  | fs, t :: rest =>
      let step := generateServer ow dir t.2.1 t.2.2 fs
      let tail := runServers ow dir step.1 rest
      (tail.1, (t.1, step.2) :: tail.2)

/-- Modelled from the spec, section 6: the effect of the optional
`server_name` argument of `generate_code(output_dir, overwrite,
server_name?)` — when supplied it names the emitted server (the
basic-usage script passes `server_name="google_drive"` for its single
scanned server, and the result and imports are keyed by that name);
when omitted, each server keeps its scanned id. -/
def applyServerName : Option String →
    List (String × List ToolDescriptor) →
    List (String × List ToolDescriptor)
  | none, ss => ss
  | some nm, ss => ss.map (fun p => (nm, p.2))

/-- Modelled from the spec, sections 4.5 and 6: `generate_code`
applies the optional server name, derives one module name per server
(collision-resolved against the reserved `_client` name), then emits
every server, returning the per-server mapping from server name to
written file paths. -/
def generate_code (r : Registry) (dir : String) (ow : Bool)
    (serverName : Option String) (fs : FS) :
    FS × Except GenError (List (String × Except GenError (List String))) :=
  match deriveAll ["_client"]
      ((applyServerName serverName r.servers).map Prod.fst) with
  | none => (fs, .error .nameCollisionExhausted)
  | some mods =>
      let triples := (mods.zip (applyServerName serverName r.servers)).map
        (fun x => (x.2.1, x.1, x.2.2))
      let out := runServers ow dir fs triples
      (out.1, .ok out.2)

/-- Modelled from the basic-usage call
`generate_code(output_dir=..., server_name=...)`: the `overwrite`
argument is omitted (the Python signature defaults it to false) and
`server_name` is passed by keyword. -/
def generate_code_with_server_name (r : Registry) (dir nm : String)
    (fs : FS) :
    FS × Except GenError (List (String × Except GenError (List String))) :=
  generate_code r dir false (some nm) fs

/-- The per-server result `generate_code` reports, as a function of
the server's plan alone. -/
def serverRes (dir : String) (t : String × String × List ToolDescriptor) :
    Except GenError (List String) :=
  match plannedServer dir t.2.1 t.2.2 with
  | none => .error .nameCollisionExhausted
  | some plan => .ok (plan.map Prod.fst)

/-- The plan of one server, empty when rendering fails. -/
def planOf (dir : String) (t : String × String × List ToolDescriptor) :
    List (String × String) :=
  (plannedServer dir t.2.1 t.2.2).getD []

/-- The content the last write to a path in a plan leaves behind. -/
def planLookupLast : List (String × String) → String → Option String
  | [], _ => none
  | (p, c) :: rest, q =>
      match planLookupLast rest q with
      | some c' => some c'
      | none => if q = p then some c else none

theorem fsRead_fsWrite (fs : FS) (p c q : String) :
    fsRead (fsWrite fs p c) q = if q = p then some c else fsRead fs q := by
  induction fs with
  | nil =>
      rcases eq_or_ne p q with rfl | h
      · simp [fsWrite, fsRead]
      · simp [fsWrite, fsRead, h, Ne.symm h]
  | cons e rest ih =>
      obtain ⟨a, b⟩ := e
      by_cases hap : a = p
      · subst hap
        simp only [fsWrite, if_pos rfl]
        rcases eq_or_ne a q with rfl | h
        · simp [fsRead]
        · simp [fsRead, h, Ne.symm h]
      · simp only [fsWrite, if_neg hap]
        rcases eq_or_ne a q with rfl | h
        · simp [fsRead, hap]
        · simp [fsRead, h, ih]

theorem fsWrite_self (fs : FS) (p c : String) (h : fsRead fs p = some c) :
    fsWrite fs p c = fs := by
  induction fs with
  | nil => simp [fsRead] at h
  | cons e rest ih =>
      obtain ⟨a, b⟩ := e
      by_cases hap : a = p
      · subst hap
        simp [fsRead] at h
        simp [fsWrite, h]
      · simp [fsRead, hap] at h
        simp [fsWrite, hap, ih h]

theorem writeFile_noop (ow : Bool) (fs : FS) (p c : String)
    (h : fsRead fs p = some c) : writeFile ow fs p c = .ok fs := by
  simp [writeFile, h]

theorem conflictAt_true (fs : FS) (pc : String × String) :
    conflictAt true fs pc = false := by
  simp [conflictAt]

theorem hasConflict_true (fs : FS) (plan : List (String × String)) :
    hasConflict true fs plan = false := by
  simp [hasConflict, conflictAt_true]

theorem conflictAt_of_read_eq (ow : Bool) (fs : FS) (pc : String × String)
    (h : fsRead fs pc.1 = some pc.2) : conflictAt ow fs pc = false := by
  simp [conflictAt, h]

theorem conflictAt_of_read_none (ow : Bool) (fs : FS) (pc : String × String)
    (h : fsRead fs pc.1 = none) : conflictAt ow fs pc = false := by
  simp [conflictAt, h]

theorem conflictAt_congr (ow : Bool) (fs fs' : FS) (pc : String × String)
    (h : fsRead fs' pc.1 = fsRead fs pc.1) :
    conflictAt ow fs' pc = conflictAt ow fs pc := by
  simp [conflictAt, h]

theorem writeFile_ok (ow : Bool) (fs : FS) (p c : String)
    (h : conflictAt ow fs (p, c) = false) :
    ∃ fs', writeFile ow fs p c = .ok fs' ∧
      ∀ q, fsRead fs' q = if q = p then some c else fsRead fs q := by
  cases hr : fsRead fs p with
  | none =>
      refine ⟨fsWrite fs p c, ?_, ?_⟩
      · simp [writeFile, hr]
      · intro q; exact fsRead_fsWrite fs p c q
  | some d =>
      by_cases hdc : d = c
      · subst hdc
        refine ⟨fs, writeFile_noop ow fs p d hr, ?_⟩
        intro q
        by_cases hq : q = p <;> simp [hq, hr]
      · have how : ow = true := by
          by_contra how
          have : ow = false := by
            cases ow
            · rfl
            · exact absurd rfl how
          rw [this] at h
          simp [conflictAt, hr, hdc] at h
        subst how
        refine ⟨fsWrite fs p c, ?_, ?_⟩
        · simp [writeFile, hr, hdc]
        · intro q; exact fsRead_fsWrite fs p c q

theorem planLookupLast_append (xs ys : List (String × String)) (q : String) :
    planLookupLast (xs ++ ys) q =
      match planLookupLast ys q with
      | some c => some c
      | none => planLookupLast xs q := by
  induction xs with
  | nil =>
      simp only [List.nil_append]
      cases hys : planLookupLast ys q <;> simp [planLookupLast]
  | cons e rest ih =>
      obtain ⟨p, c⟩ := e
      simp only [List.cons_append, planLookupLast, List.append_eq]
      rw [ih]
      cases hys : planLookupLast ys q <;>
        cases hrest : planLookupLast rest q <;> simp [hys, hrest]

theorem planLookupLast_mem (L : List (String × String)) (q c : String)
    (h : planLookupLast L q = some c) : (q, c) ∈ L := by
  induction L with
  | nil => simp [planLookupLast] at h
  | cons e rest ih =>
      obtain ⟨p, d⟩ := e
      simp only [planLookupLast] at h
      cases hr : planLookupLast rest q with
      | some c' =>
          rw [hr] at h
          cases h
          exact List.mem_cons_of_mem _ (ih hr)
      | none =>
          rw [hr] at h
          by_cases hq : q = p
          · subst hq
            simp at h
            subst h
            exact List.mem_cons_self _ _
          · simp [hq] at h

theorem strExt (a b : String) (h : a.data = b.data) : a = b := by
  cases a
  cases b
  exact congrArg String.mk h

theorem strDataAppend (a b : String) : (a ++ b).data = a.data ++ b.data := by
  cases a
  cases b
  rfl

theorem pathOf_inj (dir a b : String) (h : pathOf dir a = pathOf dir b) :
    a = b := by
  apply strExt
  have hd := congrArg String.data h
  simp only [pathOf, strDataAppend, List.append_assoc] at hd
  have h1 := List.append_cancel_left hd
  have h2 := List.append_cancel_left h1
  exact List.append_cancel_right h2

theorem modulePath_ne_clientPath (dir mod : String) (h : mod ≠ "_client") :
    modulePath dir mod ≠ clientPath dir :=
  fun hc => h (pathOf_inj dir mod "_client" hc)

theorem writeAll_pair_ok (ow : Bool) (fs : FS) (p1 c1 p2 c2 : String)
    (hne : p1 ≠ p2)
    (h1 : conflictAt ow fs (p1, c1) = false)
    (h2 : conflictAt ow fs (p2, c2) = false) :
    ∃ fs', writeAll ow fs [(p1, c1), (p2, c2)] = .ok fs' ∧
      ∀ q, fsRead fs' q =
        if q = p2 then some c2
        else if q = p1 then some c1
        else fsRead fs q := by
  obtain ⟨fsa, hwa, hra⟩ := writeFile_ok ow fs p1 c1 h1
  have hread2 : fsRead fsa p2 = fsRead fs p2 := by
    rw [hra p2, if_neg (Ne.symm hne)]
  obtain ⟨fsb, hwb, hrb⟩ := writeFile_ok ow fsa p2 c2
    (by rw [conflictAt_congr ow fs fsa (p2, c2) hread2]; exact h2)
  refine ⟨fsb, ?_, ?_⟩
  · simp [writeAll, hwa, hwb]
  · intro q
    rw [hrb q]
    by_cases hq2 : q = p2
    · simp [hq2]
    · simp [hq2, hra q]

theorem generateServer_ok (ow : Bool) (dir mod : String)
    (ds : List ToolDescriptor) (fs : FS) (content : String)
    (hr : renderModule ds = some content)
    (hmod : mod ≠ "_client")
    (hC : hasConflict ow fs
        [(modulePath dir mod, content), (clientPath dir, clientContent)]
      = false) :
    ∃ fs', generateServer ow dir mod ds fs =
        (fs', .ok [modulePath dir mod, clientPath dir]) ∧
      ∀ q, fsRead fs' q =
        if q = clientPath dir then some clientContent
        else if q = modulePath dir mod then some content
        else fsRead fs q := by
  have hplan : plannedServer dir mod ds =
      some [(modulePath dir mod, content), (clientPath dir, clientContent)] := by
    simp [plannedServer, hr]
  have hC' := hC
  simp only [hasConflict, List.any_cons, List.any_nil, Bool.or_eq_false_iff] at hC'
  obtain ⟨hC1, hC2, -⟩ := hC'
  obtain ⟨fs', hw, hread⟩ := writeAll_pair_ok ow fs _ content _ clientContent
    (modulePath_ne_clientPath dir mod hmod) hC1 hC2
  refine ⟨fs', ?_, hread⟩
  simp [generateServer, hplan, hC, hw]

theorem writeFile_true_ok (fs : FS) (p c : String) :
    ∃ fs', writeFile true fs p c = .ok fs' := by
  obtain ⟨fs', hw, -⟩ := writeFile_ok true fs p c (conflictAt_true fs (p, c))
  exact ⟨fs', hw⟩

theorem writeAll_true_ok (plan : List (String × String)) :
    ∀ fs, ∃ fs', writeAll true fs plan = .ok fs' := by
  induction plan with
  | nil => intro fs; exact ⟨fs, rfl⟩
  | cons pc rest ih =>
      intro fs
      obtain ⟨p, c⟩ := pc
      obtain ⟨fsa, hwa⟩ := writeFile_true_ok fs p c
      obtain ⟨fsb, hwb⟩ := ih fsa
      exact ⟨fsb, by simp [writeAll, hwa, hwb]⟩

theorem generateServer_true_res (dir : String)
    (t : String × String × List ToolDescriptor) (fs : FS) :
    (generateServer true dir t.2.1 t.2.2 fs).2 = serverRes dir t := by
  cases hps : plannedServer dir t.2.1 t.2.2 with
  | none => simp [generateServer, hps, serverRes]
  | some plan =>
      obtain ⟨fs', hw⟩ := writeAll_true_ok plan fs
      simp [generateServer, hps, hasConflict_true, hw, serverRes]

theorem runServers_true_res (dir : String) :
    ∀ (triples : List (String × String × List ToolDescriptor)) (fs : FS),
      (runServers true dir fs triples).2 =
        triples.map (fun t => (t.1, serverRes dir t)) := by
  intro triples
  induction triples with
  | nil => intro fs; simp [runServers]
  | cons t rest ih =>
      intro fs
      simp [runServers, generateServer_true_res, ih]

theorem generateServer_true_reads (dir : String)
    (t : String × String × List ToolDescriptor) (fs : FS)
    (hmod : t.2.1 ≠ "_client") (q : String) :
    fsRead (generateServer true dir t.2.1 t.2.2 fs).1 q =
      match planLookupLast (planOf dir t) q with
      | some c => some c
      | none => fsRead fs q := by
  cases hps : plannedServer dir t.2.1 t.2.2 with
  | none => simp [generateServer, hps, planOf, planLookupLast]
  | some plan =>
      have hps' := hps
      unfold plannedServer at hps'
      cases hr : renderModule t.2.2 with
      | none => rw [hr] at hps'; cases hps'
      | some content =>
          rw [hr] at hps'
          cases hps'
          obtain ⟨fs', hgen, hread⟩ :=
            generateServer_ok true dir t.2.1 t.2.2 fs content hr hmod
              (hasConflict_true fs _)
          rw [hgen]
          simp only
          rw [hread q]
          by_cases h2 : q = clientPath dir
          · simp [planOf, hps, planLookupLast, h2]
          · by_cases h1 : q = modulePath dir t.2.1
            · subst h1
              simp [planOf, hps, planLookupLast, h2]
            · simp [planOf, hps, planLookupLast, h1, h2]

theorem runServers_true_reads (dir : String) :
    ∀ (triples : List (String × String × List ToolDescriptor)) (fs : FS)
      (q : String), (∀ t ∈ triples, t.2.1 ≠ "_client") →
      fsRead (runServers true dir fs triples).1 q =
        match planLookupLast ((triples.map (planOf dir)).join) q with
        | some c => some c
        | none => fsRead fs q := by
  intro triples
  induction triples with
  | nil =>
      intro fs q _
      simp [runServers, planLookupLast]
  | cons t rest ih =>
      intro fs q hmods
      simp only [runServers]
      rw [ih _ q (fun x hx => hmods x (List.mem_cons_of_mem t hx))]
      rw [generateServer_true_reads dir t fs (hmods t (List.mem_cons_self t rest)) q]
      simp only [List.map_cons, List.join_cons]
      rw [planLookupLast_append]
      cases hys : planLookupLast ((rest.map (planOf dir)).join) q <;>
        cases hxs : planLookupLast (planOf dir t) q <;> simp [hys, hxs]

theorem planOf_mem (dir : String) (t : String × String × List ToolDescriptor)
    (pc : String × String) (h : pc ∈ planOf dir t) :
    pc.1 = modulePath dir t.2.1 ∨ pc = (clientPath dir, clientContent) := by
  unfold planOf at h
  cases hps : plannedServer dir t.2.1 t.2.2 with
  | none => rw [hps] at h; simp at h
  | some plan =>
      rw [hps] at h
      have hps' := hps
      unfold plannedServer at hps'
      cases hr : renderModule t.2.2 with
      | none => rw [hr] at hps'; cases hps'
      | some content =>
          rw [hr] at hps'
          cases hps'
          simp only [Option.getD_some] at h
          rcases List.mem_cons.mp h with rfl | h'
          · exact Or.inl rfl
          · rcases List.mem_cons.mp h' with rfl | h''
            · exact Or.inr rfl
            · simp at h''

theorem join_planOf_mem (dir : String)
    (rest : List (String × String × List ToolDescriptor))
    (pc : String × String) (h : pc ∈ (rest.map (planOf dir)).join) :
    ∃ t' ∈ rest, pc ∈ planOf dir t' := by
  obtain ⟨l, hl, hpc⟩ := List.mem_join.mp h
  obtain ⟨t', ht', rfl⟩ := List.mem_map.mp hl
  exact ⟨t', ht', hpc⟩

theorem planOf_self_lookup (dir : String)
    (t : String × String × List ToolDescriptor)
    (hmod : t.2.1 ≠ "_client") (pc : String × String)
    (hpc : pc ∈ planOf dir t) :
    planLookupLast (planOf dir t) pc.1 = some pc.2 := by
  unfold planOf at hpc ⊢
  cases hps : plannedServer dir t.2.1 t.2.2 with
  | none => rw [hps] at hpc; simp at hpc
  | some plan =>
      rw [hps] at hpc
      have hps' := hps
      unfold plannedServer at hps'
      cases hr : renderModule t.2.2 with
      | none => rw [hr] at hps'; cases hps'
      | some content =>
          rw [hr] at hps'
          cases hps'
          simp only [Option.getD_some] at hpc ⊢
          rcases List.mem_cons.mp hpc with rfl | h'
          · have hne := modulePath_ne_clientPath dir t.2.1 hmod
            simp [planLookupLast, hne]
          · rcases List.mem_cons.mp h' with rfl | h''
            · simp [planLookupLast]
            · simp at h''

theorem runServers_true_established (dir : String) :
    ∀ (triples : List (String × String × List ToolDescriptor)) (fs : FS),
      (triples.map (fun t => t.2.1)).Nodup →
      (∀ t ∈ triples, t.2.1 ≠ "_client") →
      ∀ t ∈ triples, ∀ pc ∈ planOf dir t,
        fsRead (runServers true dir fs triples).1 pc.1 = some pc.2 := by
  intro triples
  induction triples with
  | nil => intro fs _ _ t ht; simp at ht
  | cons t0 rest ih =>
      intro fs hnd hnc t ht pc hpc
      have hndr : (rest.map (fun t => t.2.1)).Nodup :=
        (List.nodup_cons.mp (by simpa using hnd)).2
      have hncr : ∀ x ∈ rest, x.2.1 ≠ "_client" :=
        fun x hx => hnc x (List.mem_cons_of_mem t0 hx)
      have hnotm : t0.2.1 ∉ rest.map (fun t => t.2.1) :=
        (List.nodup_cons.mp (by simpa using hnd)).1
      rcases List.mem_cons.mp ht with rfl | htr
      · -- the head server's plan survives the remaining servers
        simp only [runServers]
        rw [runServers_true_reads dir rest _ pc.1 hncr]
        have hread0 :
            fsRead (generateServer true dir t.2.1 t.2.2 fs).1 pc.1 =
              match planLookupLast (planOf dir t) pc.1 with
              | some c => some c
              | none => fsRead fs pc.1 :=
          generateServer_true_reads dir t fs
            (hnc t (List.mem_cons_self t rest)) pc.1
        -- identify pc within the head plan
        have hps0 := planOf_mem dir t pc hpc
        -- the head plan entries are not overwritten by the tail
        have htail :
            ∀ c', planLookupLast ((rest.map (planOf dir)).join) pc.1 = some c' →
              pc.1 = clientPath dir ∧ c' = clientContent := by
          intro c' hc'
          obtain ⟨t', ht', hmem'⟩ :=
            join_planOf_mem dir rest (pc.1, c') (planLookupLast_mem _ _ _ hc')
          rcases planOf_mem dir t' (pc.1, c') hmem' with h1 | h2
          · exfalso
            rcases hps0 with hmod | hcli
            · -- two distinct module paths cannot coincide
              rw [hmod] at h1
              have heq : t.2.1 = t'.2.1 := pathOf_inj dir _ _ h1
              apply hnotm
              rw [heq]
              exact List.mem_map_of_mem (fun x => x.2.1) ht'
            · -- the client path is not a module path
              have : pc.1 = clientPath dir := by rw [hcli]
              rw [this] at h1
              exact hncr t' ht' (pathOf_inj dir t'.2.1 "_client" h1.symm)
          · have h21 : pc.1 = clientPath dir := congrArg Prod.fst h2
            have h22 : c' = clientContent := congrArg Prod.snd h2
            exact ⟨h21, h22⟩
        -- read the established value through the tail
        cases hc' : planLookupLast ((rest.map (planOf dir)).join) pc.1 with
        | some c' =>
            obtain ⟨hcp, hcc⟩ := htail c' hc'
            -- then pc is the client entry, whose content the tail rewrote
            -- with the identical shared content
            rcases hps0 with hmod | hcli
            · -- module entry: its path is not the client path
              exfalso
              rw [hmod] at hcp
              exact hnc t (List.mem_cons_self t rest)
                (pathOf_inj dir t.2.1 "_client" hcp)
            · have : pc.2 = clientContent := congrArg Prod.snd hcli
              rw [hcc, this]
        | none =>
            rw [hread0]
            rw [planOf_self_lookup dir t
              (hnc t (List.mem_cons_self t rest)) pc hpc]
      · -- a tail server: apply the induction hypothesis from the new store
        simp only [runServers]
        exact ih _ hndr hncr t htr pc hpc

theorem writeAll_noop (ow : Bool) (plan : List (String × String)) :
    ∀ fs, (∀ pc ∈ plan, fsRead fs pc.1 = some pc.2) →
      writeAll ow fs plan = .ok fs := by
  induction plan with
  | nil => intro fs _; rfl
  | cons pc rest ih =>
      intro fs h
      obtain ⟨p, c⟩ := pc
      have h0 : fsRead fs p = some c := h (p, c) (List.mem_cons_self _ _)
      simp only [writeAll, writeFile_noop ow fs p c h0]
      exact ih fs (fun x hx => h x (List.mem_cons_of_mem _ hx))

theorem runServers_noop (ow : Bool) (dir : String) :
    ∀ (triples : List (String × String × List ToolDescriptor)) (fs : FS),
      (∀ t ∈ triples, ∀ pc ∈ planOf dir t, fsRead fs pc.1 = some pc.2) →
      runServers ow dir fs triples =
        (fs, triples.map (fun t => (t.1, serverRes dir t))) := by
  intro triples
  induction triples with
  | nil => intro fs _; simp [runServers]
  | cons t rest ih =>
      intro fs hest
      have hstep : generateServer ow dir t.2.1 t.2.2 fs = (fs, serverRes dir t) := by
        cases hps : plannedServer dir t.2.1 t.2.2 with
        | none => simp [generateServer, hps, serverRes]
        | some plan =>
            have hplanOf : planOf dir t = plan := by simp [planOf, hps]
            have hest_t : ∀ pc ∈ plan, fsRead fs pc.1 = some pc.2 := by
              rw [← hplanOf]
              exact hest t (List.mem_cons_self t rest)
            have hC : hasConflict ow fs plan = false := by
              simp only [hasConflict, List.any_eq_false]
              intro pc hpc
              simp [conflictAt_of_read_eq ow fs pc (hest_t pc hpc)]
            have hW : writeAll ow fs plan = .ok fs :=
              writeAll_noop ow plan fs hest_t
            simp [generateServer, hps, hC, hW, serverRes]
      simp only [runServers, hstep]
      rw [ih fs (fun x hx => hest x (List.mem_cons_of_mem t hx))]
      simp

/-- C2: with `overwrite=true`, a second `generate_code` run on
unchanged input returns the identical store and the identical
per-server report (the regeneration is byte-identical), and rewriting
a target file whose existing content equals the newly rendered content
is a no-op. -/
theorem generate_code_idempotent (r : Registry) (dir : String)
    (sn : Option String) (fs : FS)
    (p c : String) (h : fsRead fs p = some c) :
    generate_code r dir true sn ((generate_code r dir true sn fs).1) =
        generate_code r dir true sn fs ∧
      writeFile true fs p c = .ok fs := by
  refine ⟨?_, writeFile_noop true fs p c h⟩
  cases hm : deriveAll ["_client"]
      ((applyServerName sn r.servers).map Prod.fst) with
  | none => simp [generate_code, hm]
  | some mods =>
      simp only [generate_code, hm]
      set triples := (mods.zip (applyServerName sn r.servers)).map
        (fun x => (x.2.1, x.1, x.2.2)) with htrip
      have hsound := deriveAll_sound
        ((applyServerName sn r.servers).map Prod.fst) ["_client"] mods hm
      have hlen := deriveAll_length
        ((applyServerName sn r.servers).map Prod.fst) ["_client"] mods hm
      rw [List.length_map] at hlen
      have hmapmods : triples.map (fun t => t.2.1) = mods := by
        rw [htrip, List.map_map]
        have hcomp : ((fun t : String × String × List ToolDescriptor => t.2.1) ∘
            (fun x : String × (String × List ToolDescriptor) =>
              (x.2.1, x.1, x.2.2))) = Prod.fst := by
          funext x; rfl
        rw [hcomp]
        exact List.map_fst_zip mods (applyServerName sn r.servers)
          (le_of_eq hlen)
      have hnd : (triples.map (fun t => t.2.1)).Nodup := by
        rw [hmapmods]; exact hsound.1
      have hnc : ∀ t ∈ triples, t.2.1 ≠ "_client" := by
        intro t ht hteq
        have hmem : t.2.1 ∈ mods := by
          rw [← hmapmods]
          exact List.mem_map_of_mem (fun t => t.2.1) ht
        exact hsound.2 t.2.1 hmem (by rw [hteq]; exact List.mem_cons_self _ _)
      have hest := runServers_true_established dir triples fs hnd hnc
      have hnoop := runServers_noop true dir triples
        ((runServers true dir fs triples).1) hest
      have hres := runServers_true_res dir triples fs
      rw [hnoop]
      simp [hres]

/-- Concrete instantiation of `generate_code_idempotent` on the
running example registry over a one-file store. -/
theorem generate_code_idempotent_witness :
    generate_code regEx "out" true none
        ((generate_code regEx "out" true none [("a", "x")]).1) =
        generate_code regEx "out" true none [("a", "x")] ∧
      writeFile true [("a", "x")] "a" "x" = .ok [("a", "x")] :=
  generate_code_idempotent regEx "out" none [("a", "x")] "a" "x" rfl

/-- C3: with `overwrite=false`, a pre-existing target file whose
content diverges from what would be emitted makes the server's
generation fail with `OutputConflictError`, and the file store is
returned untouched — no file of that server's output set is
modified. -/
theorem overwrite_false_conflict (dir mod : String)
    (ds : List ToolDescriptor) (fs : FS) (plan : List (String × String))
    (p c d : String)
    (hplan : plannedServer dir mod ds = some plan)
    (hmem : (p, c) ∈ plan)
    (hex : fsRead fs p = some d) (hdiv : d ≠ c) :
    generateServer false dir mod ds fs = (fs, .error .outputConflict) := by
  have hconf : conflictAt false fs (p, c) = true := by
    simp [conflictAt, hex, hdiv]
  have hC : hasConflict false fs plan = true :=
    List.any_eq_true.mpr ⟨(p, c), hmem, hconf⟩
  simp [generateServer, hplan, hC]

/-- Concrete instantiation of `overwrite_false_conflict`: the shared
accessor file pre-exists with divergent content. -/
theorem overwrite_false_conflict_witness :
    generateServer false "out" "gdrive" [toolEx]
        [(clientPath "out", "OLD")] =
      ([(clientPath "out", "OLD")], .error .outputConflict) :=
  overwrite_false_conflict "out" "gdrive" [toolEx]
    [(clientPath "out", "OLD")]
    ((plannedServer "out" "gdrive" [toolEx]).getD [])
    (clientPath "out") clientContent "OLD"
    (by decide) (by decide) (by decide) (by decide)

/-- C5 counterexample: generating the example `gdrive` server into the
output directory `servers` plans the module at `servers/gdrive.py` and
the shared session accessor at `servers/_client.py` — matching the
example's `from servers._client import set_session` — and emits
nothing nested under `servers/gdrive/`. -/
theorem client_accessor_not_nested :
    (plannedServer "servers" "gdrive" [toolEx]).map
        (fun pl => pl.map Prod.fst)
      = some ["servers/gdrive.py", "servers/_client.py"] ∧
      clientPath "servers" = "servers/_client.py" ∧
      clientPath "servers" ≠ "servers/gdrive/_client.py" := by
  refine ⟨by decide, by decide, by decide⟩

/-- C5 (amended): the on-disk layout places one module per server at
`output_dir/<module>` and the single shared session accessor at
`output_dir/_client`, directly under the output directory rather than
nested under each server's directory. -/
theorem layout_per_server (dir mod : String) (ds : List ToolDescriptor)
    (plan : List (String × String))
    (h : plannedServer dir mod ds = some plan) :
    plan.map Prod.fst = [modulePath dir mod, clientPath dir] ∧
      modulePath dir mod = dir ++ "/" ++ mod ++ ".py" ∧
      clientPath dir = dir ++ "/_client.py" := by
  refine ⟨?_, rfl, ?_⟩
  · have hps' := h
    unfold plannedServer at hps'
    cases hr : renderModule ds with
    | none => rw [hr] at hps'; cases hps'
    | some content =>
        rw [hr] at hps'
        cases hps'
        simp
  · apply strExt
    simp only [clientPath, pathOf, strDataAppend, List.append_assoc]
    congr 1

/-- Concrete instantiation of `layout_per_server` on the example
`gdrive` server. -/
theorem layout_per_server_witness :
    ((plannedServer "servers" "gdrive" [toolEx]).getD []).map Prod.fst
        = [modulePath "servers" "gdrive", clientPath "servers"] ∧
      modulePath "servers" "gdrive" = "servers" ++ "/" ++ "gdrive" ++ ".py" ∧
      clientPath "servers" = "servers" ++ "/_client.py" :=
  layout_per_server "servers" "gdrive" [toolEx]
    ((plannedServer "servers" "gdrive" [toolEx]).getD []) (by decide)

theorem runServers_fresh (dir : String) :
    ∀ (triples : List (String × String × List ToolDescriptor)) (fs : FS),
      (triples.map (fun t => t.2.1)).Nodup →
      (∀ t ∈ triples, t.2.1 ≠ "_client") →
      (∀ t ∈ triples, fsRead fs (modulePath dir t.2.1) = none) →
      (fsRead fs (clientPath dir) = none ∨
        fsRead fs (clientPath dir) = some clientContent) →
      (runServers false dir fs triples).2 =
        triples.map (fun t => (t.1, serverRes dir t)) := by
  intro triples
  induction triples with
  | nil => intro fs _ _ _ _; simp [runServers]
  | cons t0 rest ih =>
      intro fs hnd hnc hmp hcp
      have hndr : (rest.map (fun t => t.2.1)).Nodup :=
        (List.nodup_cons.mp (by simpa using hnd)).2
      have hnotm : t0.2.1 ∉ rest.map (fun t => t.2.1) :=
        (List.nodup_cons.mp (by simpa using hnd)).1
      have hncr : ∀ x ∈ rest, x.2.1 ≠ "_client" :=
        fun x hx => hnc x (List.mem_cons_of_mem t0 hx)
      have hnc0 : t0.2.1 ≠ "_client" := hnc t0 (List.mem_cons_self t0 rest)
      cases hrm : renderModule t0.2.2 with
      | none =>
          have hps : plannedServer dir t0.2.1 t0.2.2 = none := by
            simp [plannedServer, hrm]
          have hstep : generateServer false dir t0.2.1 t0.2.2 fs =
              (fs, .error .nameCollisionExhausted) := by
            simp [generateServer, hps]
          simp only [runServers, hstep]
          rw [ih fs hndr hncr
            (fun x hx => hmp x (List.mem_cons_of_mem t0 hx)) hcp]
          simp [serverRes, hps]
      | some content =>
          have hmp0 : fsRead fs (modulePath dir t0.2.1) = none :=
            hmp t0 (List.mem_cons_self t0 rest)
          have hC : hasConflict false fs
              [(modulePath dir t0.2.1, content),
                (clientPath dir, clientContent)] = false := by
            simp only [hasConflict, List.any_cons, List.any_nil,
              Bool.or_eq_false_iff]
            refine ⟨conflictAt_of_read_none false fs _ hmp0, ?_, trivial⟩
            rcases hcp with hn | he
            · exact conflictAt_of_read_none false fs _ hn
            · exact conflictAt_of_read_eq false fs _ he
          obtain ⟨fs', hgen, hread⟩ :=
            generateServer_ok false dir t0.2.1 t0.2.2 fs content hrm hnc0 hC
          have hmp' : ∀ x ∈ rest, fsRead fs' (modulePath dir x.2.1) = none := by
            intro x hx
            have hx1 : modulePath dir x.2.1 ≠ clientPath dir :=
              modulePath_ne_clientPath dir x.2.1 (hncr x hx)
            have hx2 : modulePath dir x.2.1 ≠ modulePath dir t0.2.1 := by
              intro he
              apply hnotm
              rw [← pathOf_inj dir x.2.1 t0.2.1 he]
              exact List.mem_map_of_mem (fun t => t.2.1) hx
            rw [hread (modulePath dir x.2.1), if_neg hx1, if_neg hx2]
            exact hmp x (List.mem_cons_of_mem t0 hx)
          have hcp' : fsRead fs' (clientPath dir) = none ∨
              fsRead fs' (clientPath dir) = some clientContent := by
            right
            rw [hread (clientPath dir), if_pos rfl]
          simp only [runServers, hgen]
          rw [ih fs' hndr hncr hmp' hcp']
          have hps : plannedServer dir t0.2.1 t0.2.2 =
              some [(modulePath dir t0.2.1, content),
                (clientPath dir, clientContent)] := by
            simp [plannedServer, hrm]
          simp [serverRes, hps]

/-- C10: `generate_code` is callable with `overwrite` omitted — the
modelled default is overwrite=false — and with `server_name` passed by
keyword, as the basic-usage script does; into a fresh output directory
it succeeds, returning a mapping from server name to the list of
written file paths that supports length and iteration, one entry per
scanned server. -/
theorem generate_code_server_name_ok (r : Registry) (dir nm : String)
    (mods : List String)
    (hm : deriveAll ["_client"]
      ((applyServerName (some nm) r.servers).map Prod.fst) = some mods)
    (hrender : ∀ t ∈ (mods.zip (applyServerName (some nm) r.servers)).map
        (fun x => (x.2.1, x.1, x.2.2)),
      (plannedServer dir t.2.1 t.2.2).isSome = true) :
    ∃ results, (generate_code_with_server_name r dir nm []).2 = .ok results ∧
      results.map Prod.fst =
        (applyServerName (some nm) r.servers).map Prod.fst ∧
      results.length = r.servers.length ∧
      ∀ x ∈ results, ∃ files, x.2 = .ok files := by
  have hsound := deriveAll_sound
    ((applyServerName (some nm) r.servers).map Prod.fst) ["_client"] mods hm
  have hlen := deriveAll_length
    ((applyServerName (some nm) r.servers).map Prod.fst) ["_client"] mods hm
  rw [List.length_map] at hlen
  set triples := (mods.zip (applyServerName (some nm) r.servers)).map
    (fun x => (x.2.1, x.1, x.2.2)) with htrip
  have hmapmods : triples.map (fun t => t.2.1) = mods := by
    rw [htrip, List.map_map]
    have hcomp : ((fun t : String × String × List ToolDescriptor => t.2.1) ∘
        (fun x : String × (String × List ToolDescriptor) =>
          (x.2.1, x.1, x.2.2))) = Prod.fst := by
      funext x; rfl
    rw [hcomp]
    exact List.map_fst_zip mods (applyServerName (some nm) r.servers)
      (le_of_eq hlen)
  have hnd : (triples.map (fun t => t.2.1)).Nodup := by
    rw [hmapmods]; exact hsound.1
  have hnc : ∀ t ∈ triples, t.2.1 ≠ "_client" := by
    intro t ht hteq
    have hmem : t.2.1 ∈ mods := by
      rw [← hmapmods]
      exact List.mem_map_of_mem (fun t => t.2.1) ht
    exact hsound.2 t.2.1 hmem (by rw [hteq]; exact List.mem_cons_self _ _)
  have hrun := runServers_fresh dir triples [] hnd hnc
    (fun t _ => rfl) (Or.inl rfl)
  refine ⟨triples.map (fun t => (t.1, serverRes dir t)), ?_, ?_, ?_, ?_⟩
  · simp only [generate_code_with_server_name, generate_code, hm]
    rw [hrun]
  · rw [htrip, List.map_map, List.map_map]
    have hcomp : ((Prod.fst ∘ fun t : String × String × List ToolDescriptor =>
        (t.1, serverRes dir t)) ∘
        (fun x : String × (String × List ToolDescriptor) =>
          (x.2.1, x.1, x.2.2))) = (Prod.fst ∘ Prod.snd) := by
      funext x; rfl
    rw [hcomp, ← List.map_map]
    rw [List.map_snd_zip mods (applyServerName (some nm) r.servers)
      (le_of_eq hlen.symm)]
  · rw [htrip]
    simp [List.length_zip, hlen, applyServerName]
  · intro x hx
    obtain ⟨t, ht, rfl⟩ := List.mem_map.mp hx
    cases hps : plannedServer dir t.2.1 t.2.2 with
    | none =>
        exfalso
        have := hrender t (htrip ▸ ht)
        rw [hps] at this
        cases this
    | some plan => exact ⟨plan.map Prod.fst, by simp [serverRes, hps]⟩

/-- Concrete instantiation of `generate_code_server_name_ok`: the
running example registry generated into a fresh store with
`server_name="google_drive"`, as in the basic-usage script. -/
theorem generate_code_server_name_ok_witness :
    ∃ results,
      (generate_code_with_server_name regEx "out" "google_drive" []).2 =
        .ok results ∧
      results.map Prod.fst =
        (applyServerName (some "google_drive") regEx.servers).map Prod.fst ∧
      results.length = regEx.servers.length ∧
      ∀ x ∈ results, ∃ files, x.2 = .ok files :=
  generate_code_server_name_ok regEx "out" "google_drive" ["google_drive"]
    (by decide) (by decide)
